import Mathlib

set_option autoImplicit false

/-
Verification of the student-grouping pipeline (tut_01/main.py):
branch classifier, uniform distributor, mixed distributor, summary reporter.
Records are modelled generically as a type R with a roll-number projection
roll : R -> String.  Python lists become Lean lists, dicts with insertion
order become association lists, and the two fallible library calls
(divmod by zero, pandas concat of nothing, list indexing) surface as an
explicit error type.
-/

namespace StudentGroups

/-- Errors that the Python runtime can raise on the modelled code paths. -/
inductive PyErr where
  | zeroDivisionError
  | indexError
  | valueError
deriving DecidableEq

/-- Embeds the classifier pattern of split_by_branch:
re.match with regex caret [0-9]x4 ([A-Za-z]x2) [0-9]x2, i.e. the string must
start with exactly 4 ASCII digits, 2 ASCII letters, 2 ASCII digits
(anything may follow); on success the captured letters, upper-cased. -/
def branchCode (s : String) : Option String :=
  match s.toList with
  | d1 :: d2 :: d3 :: d4 :: a1 :: a2 :: e1 :: e2 :: _ =>
    if d1.isDigit && d2.isDigit && d3.isDigit && d4.isDigit
        && a1.isAlpha && a2.isAlpha && e1.isDigit && e2.isDigit
    then some (String.mk [a1.toUpper, a2.toUpper])
    else none
  | _ => none

variable {R : Type}

/-- Embeds grouped.setdefault(code, []).append(row): append the row to the
bucket of the given code, creating the bucket at the end on first sight. -/
def appendToBucket (code : String) (r : R) : List (String × List R) → List (String × List R)
  | [] => [(code, [r])]
  | (c, rs) :: t =>
    if c = code then (c, rs ++ [r]) :: t else (c, rs) :: appendToBucket code r t

/-- One iteration of the row loop of split_by_branch: a matching row goes to
its bucket, a non-matching row is reported (collected as unmatched). -/
def splitStep (roll : R → String) (acc : List (String × List R) × List R) (r : R) :
    List (String × List R) × List R :=
  match branchCode (roll r) with
  | some c => (appendToBucket c r acc.1, acc.2)
  | none => (acc.1, acc.2 ++ [r])

/-- Embeds split_by_branch: walk the rows in order, bucketing matches by
upper-cased branch code; returns (grouped, unmatched rows). -/
def split_by_branch (roll : R → String) (rows : List R) :
    List (String × List R) × List R :=
  rows.foldl (splitStep roll) ([], [])

/-- First bucket stored under the given code (empty list when absent). -/
def findBucket (code : String) : List (String × List R) → List R
  | [] => []
  | (c, rs) :: t => if c = code then rs else findBucket code t

/-- Total number of records held in a bucket mapping. -/
def totalOf (bd : List (String × List R)) : ℕ :=
  (bd.map (fun p => p.2.length)).sum

/-- Stable insertion of a bucket into a list sorted by descending record
count: the bucket goes in front of the first strictly smaller one, after
all buckets of greater or equal size (Python sorted is stable). -/
def insertDesc (x : String × List R) : List (String × List R) → List (String × List R)
  | [] => [x]
  | y :: t => if y.2.length ≤ x.2.length then x :: y :: t else y :: insertDesc x t

/-- Embeds sorted(branch_data.items(), key len, reverse=True): stable sort
of the buckets by descending record count. -/
def sortDesc : List (String × List R) → List (String × List R)
  | [] => []
  | x :: t => insertDesc x (sortDesc t)

/-- Embeds the pd.concat of the size-ordered buckets in uniform_distribution:
all records, bucket order by descending size (stable), within-bucket order
kept. -/
def uniformMerged (bd : List (String × List R)) : List R :=
  ((sortDesc bd).map Prod.snd).flatten

/-- Embeds the slicing loop of uniform_distribution: n successive slices of
the list, each of size plus one while the decrementing remainder is still
positive (iloc slicing clamps at the end of the list, as take does). -/
def sliceGroups (size : ℕ) : List R → ℕ → ℕ → List (List R)
  | _, _, 0 => []
  | l, r, n + 1 =>
    let k := size + (if 0 < r then 1 else 0)
    l.take k :: sliceGroups size (l.drop k) (r - 1) n

/-- The list of groups uniform_distribution writes out (ok payload). -/
def uniformGroups (bd : List (String × List R)) (n : ℕ) : List (List R) :=
  sliceGroups ((uniformMerged bd).length / n) (uniformMerged bd)
    ((uniformMerged bd).length % n) n

/-- Embeds uniform_distribution.  pd.concat of an empty bucket mapping
raises ValueError before divmod runs; divmod(total, 0) raises
ZeroDivisionError; otherwise the groups are the contiguous slices. -/
def uniform_distribution (bd : List (String × List R)) (n : ℕ) :
    Except PyErr (List (List R)) :=
  if bd.isEmpty then .error .valueError
  else if n = 0 then .error .zeroDivisionError
  else .ok (uniformGroups bd n)

/-- One pass of the inner for-loop of mixed_distribution: cycle once over the
snapshot of branch queues in order, popping the front of each non-empty queue
into the group, deleting a queue that empties, and breaking as soon as the
group reaches the target size (the untouched remainder of the snapshot is
kept as is). -/
def fillPass (size : ℕ) :
    List (String × List R) → List R → (List (String × List R)) × List R
  | [], group => ([], group)
  | (b, q) :: rest, group =>
    match q with
    | [] => fillPass size rest group
    | r :: q' =>
      if (group ++ [r]).length = size then
        ((if q'.isEmpty then rest else (b, q') :: rest), group ++ [r])
      else
        ((if q'.isEmpty then (fillPass size rest (group ++ [r])).1
          else (b, q') :: (fillPass size rest (group ++ [r])).1),
          (fillPass size rest (group ++ [r])).2)

/-- Loop variant of the while-loop of mixed_distribution: queue count plus
total queued records, which strictly decreases on every pass over a
non-empty pool list. -/
def poolMeasure (pools : List (String × List R)) : ℕ :=
  pools.length + totalOf pools

/-- Fuel-bounded unfolding of the while-loop of mixed_distribution: repeat
fillPass while the group is below the target size and queues remain.  The
fuel poolMeasure is enough for the loop to reach its exit condition, so the
zero-fuel case is never taken from fillGroup. -/
def fillGroupF (size : ℕ) :
    ℕ → List (String × List R) → List R → (List (String × List R)) × List R
  | 0, pools, group => (pools, group)
  | fuel + 1, pools, group =>
    if group.length < size ∧ pools.isEmpty = false then
      let res := fillPass size pools group
      fillGroupF size fuel res.1 res.2
    else (pools, group)

/-- The while-loop of mixed_distribution filling one group from empty. -/
def fillGroup (size : ℕ) (pools : List (String × List R)) :
    (List (String × List R)) × List R :=
  fillGroupF size (poolMeasure pools) pools []

/-- The outer group loop of mixed_distribution: fill each of the n groups in
index order from the shared pool state. -/
def fillGroups (size : ℕ) :
    ℕ → List (String × List R) → (List (String × List R)) × List (List R)
  | 0, pools => (pools, [])
  | n + 1, pools =>
    let res1 := fillGroup size pools
    let res2 := fillGroups size n res1.1
    (res2.1, res1.2 :: res2.2)

/-- Replace the element at an index by applying f (identity out of range;
the modelled code only indexes within range). -/
def modifyIdx (f : List R → List R) : ℕ → List (List R) → List (List R)
  | _, [] => []
  | 0, g :: t => f g :: t
  | i + 1, g :: t => g :: modifyIdx f i t

/-- The leftover loop of mixed_distribution: append leftover records one at a
time to groups in round-robin order, group index idx mod n, starting at 0. -/
def addLeftovers (n : ℕ) : List R → ℕ → List (List R) → List (List R)
  | [], _, groups => groups
  | r :: rest, idx, groups =>
    addLeftovers n rest (idx + 1) (modifyIdx (fun g => g ++ [r]) (idx % n) groups)

/-- The groups mixed_distribution writes out for a positive group count:
fill n groups to the target size total div n, then round-robin the records
left in the queues. -/
def mixedGroups (bd : List (String × List R)) (n : ℕ) : List (List R) :=
  addLeftovers n (((fillGroups (totalOf bd / n) n bd).1.map Prod.snd).flatten) 0
    (fillGroups (totalOf bd / n) n bd).2

/-- Embeds mixed_distribution over the Python int group_count.
divmod(total, 0) raises ZeroDivisionError; for a negative count the group
list built from range(group_count) is empty, the fill loop body never runs,
every record becomes a leftover, and the first leftover append indexes into
the empty group list raising IndexError (with no records at all the function
silently succeeds with no groups); for a positive count the fill and
leftover phases run. -/
def mixed_distribution (bd : List (String × List R)) (group_count : ℤ) :
    Except PyErr (List (List R)) :=
  if group_count = 0 then .error .zeroDivisionError
  else if group_count < 0 then
    if ((bd.map Prod.snd).flatten).isEmpty then .ok [] else .error .indexError
  else .ok (mixedGroups bd group_count.toNat)

/-- Appends the elements of the second list one-to-one onto the first
members of the group list: the closed form that addLeftovers takes when
every leftover lands in a distinct leading group. -/
def zipApp : List (List R) → List R → List (List R)
  | gs, [] => gs
  | [], _ :: _ => []
  | g :: gs, x :: l => (g ++ [x]) :: zipApp gs l

/-- Multiset of all records stored in a bucket mapping. -/
def recsMS (g : List (String × List R)) : Multiset R :=
  ((g.map Prod.snd).flatten : List R)

theorem recsMS_nil : recsMS ([] : List (String × List R)) = 0 := rfl

theorem coe_append (l₁ l₂ : List R) : ((l₁ ++ l₂ : List R) : Multiset R) = ↑l₁ + ↑l₂ :=
  (Multiset.coe_add l₁ l₂).symm

theorem coe_cons (a : R) (l : List R) : ((a :: l : List R) : Multiset R) = {a} + ↑l := by
  rw [Multiset.singleton_add]
  exact (Multiset.cons_coe a l).symm

theorem recsMS_cons (c : String) (rs : List R) (t : List (String × List R)) :
    recsMS ((c, rs) :: t) = (rs : Multiset R) + recsMS t := by
  simp [recsMS]

theorem findBucket_appendToBucket (c code : String) (r : R) (g : List (String × List R)) :
    findBucket c (appendToBucket code r g) =
      if code = c then findBucket c g ++ [r] else findBucket c g := by
  induction g with
  | nil =>
    by_cases h : code = c <;> simp [appendToBucket, findBucket, h]
  | cons p t ih =>
    obtain ⟨b, rs⟩ := p
    by_cases hb : b = code
    · subst hb
      by_cases h : b = c <;> simp [appendToBucket, findBucket, h]
    · by_cases h : b = c
      · subst h
        have : ¬ code = b := fun hh => hb hh.symm
        simp [appendToBucket, findBucket, hb, this, ih]
      · simp [appendToBucket, findBucket, hb, h, ih]

theorem keys_appendToBucket (code : String) (r : R) (g : List (String × List R)) :
    (appendToBucket code r g).map Prod.fst =
      if code ∈ g.map Prod.fst then g.map Prod.fst else g.map Prod.fst ++ [code] := by
  induction g with
  | nil => simp [appendToBucket]
  | cons p t ih =>
    obtain ⟨b, rs⟩ := p
    by_cases hb : b = code
    · subst hb
      simp [appendToBucket]
    · have : ¬ code = b := fun hh => hb hh.symm
      by_cases hm : code ∈ t.map Prod.fst <;>
        simp [appendToBucket, hb, this, hm, ih]

theorem nodup_keys_appendToBucket (code : String) (r : R) (g : List (String × List R))
    (h : (g.map Prod.fst).Nodup) : ((appendToBucket code r g).map Prod.fst).Nodup := by
  rw [keys_appendToBucket]
  by_cases hm : code ∈ g.map Prod.fst
  · simpa [hm]
  · simp only [hm, if_false]
    apply List.Nodup.append h (List.nodup_singleton code)
    intro a ha hb
    rw [List.mem_singleton] at hb
    subst hb
    exact hm ha

theorem recsMS_appendToBucket (code : String) (r : R) (g : List (String × List R)) :
    recsMS (appendToBucket code r g) = r ::ₘ recsMS g := by
  induction g with
  | nil => simp [appendToBucket, recsMS]
  | cons p t ih =>
    obtain ⟨b, rs⟩ := p
    by_cases hb : b = code
    · subst hb
      simp only [appendToBucket, eq_self_iff_true, if_true, recsMS_cons, coe_append,
        Multiset.coe_singleton, ← Multiset.singleton_add]
      abel
    · simp only [appendToBucket, if_neg hb, recsMS_cons, ih, ← Multiset.singleton_add]
      abel

theorem findBucket_eq_of_mem (c : String) (rs : List R) :
    ∀ g : List (String × List R), (c, rs) ∈ g → (g.map Prod.fst).Nodup →
      findBucket c g = rs := by
  intro g
  induction g with
  | nil => intro hm _; cases hm
  | cons p t ih =>
    intro hm hn
    obtain ⟨b, qs⟩ := p
    simp only [List.map_cons, List.nodup_cons] at hn
    rcases List.mem_cons.mp hm with h | h
    · injection h with h1 h2
      subst h1
      subst h2
      simp [findBucket]
    · have hbc : ¬ b = c := by
        intro hbceq
        apply hn.1
        subst hbceq
        exact List.mem_map_of_mem Prod.fst h
      simp [findBucket, hbc, ih h hn.2]

theorem split_foldl_findBucket (roll : R → String) (rows : List R) (c : String) :
    ∀ acc : List (String × List R) × List R,
      findBucket c (rows.foldl (splitStep roll) acc).1 =
        findBucket c acc.1 ++ rows.filter (fun r => branchCode (roll r) = some c) := by
  induction rows with
  | nil => intro acc; simp
  | cons r rest ih =>
    intro acc
    rw [List.foldl_cons, ih]
    rcases hb : branchCode (roll r) with _ | c'
    · have : ¬ (branchCode (roll r) = some c) := by simp [hb]
      simp [splitStep, hb, List.filter_cons, this]
    · by_cases hc : c' = c
      · subst hc
        simp [splitStep, hb, List.filter_cons, findBucket_appendToBucket]
      · have : ¬ (branchCode (roll r) = some c) := by simp [hb, hc]
        simp [splitStep, hb, List.filter_cons, this, findBucket_appendToBucket, hc]

theorem split_foldl_unmatched (roll : R → String) (rows : List R) :
    ∀ acc : List (String × List R) × List R,
      (rows.foldl (splitStep roll) acc).2 =
        acc.2 ++ rows.filter (fun r => branchCode (roll r) = none) := by
  induction rows with
  | nil => intro acc; simp
  | cons r rest ih =>
    intro acc
    rw [List.foldl_cons, ih]
    rcases hb : branchCode (roll r) with _ | c'
    · simp [splitStep, hb, List.filter_cons]
    · simp [splitStep, hb, List.filter_cons]

theorem split_foldl_nodup (roll : R → String) (rows : List R) :
    ∀ acc : List (String × List R) × List R,
      (acc.1.map Prod.fst).Nodup → ((rows.foldl (splitStep roll) acc).1.map Prod.fst).Nodup := by
  induction rows with
  | nil => intro acc h; simpa
  | cons r rest ih =>
    intro acc h
    rw [List.foldl_cons]
    apply ih
    rcases hb : branchCode (roll r) with _ | c'
    · simpa [splitStep, hb]
    · simpa [splitStep, hb] using nodup_keys_appendToBucket c' r acc.1 h

theorem split_foldl_recs (roll : R → String) (rows : List R) :
    ∀ acc : List (String × List R) × List R,
      recsMS (rows.foldl (splitStep roll) acc).1 + ↑(rows.foldl (splitStep roll) acc).2 =
        recsMS acc.1 + ↑acc.2 + ↑rows := by
  induction rows with
  | nil => intro acc; simp
  | cons r rest ih =>
    intro acc
    rw [List.foldl_cons, ih]
    rcases hb : branchCode (roll r) with _ | c'
    · simp only [splitStep, hb, coe_append, coe_cons, Multiset.coe_singleton]
      abel
    · simp only [splitStep, hb, recsMS_appendToBucket, coe_cons,
        ← Multiset.singleton_add]
      abel

/-- C1: Branch Classifier partition.  The classifier's bucket keys are
pairwise distinct; the bucket stored under a code is exactly the input rows
whose identifier matches the pattern with that (upper-cased) code, in input
row order; the unmatched output is exactly the rows matching no pattern, in
input order; and buckets plus unmatched together are a permutation of the
input rows (no record lost or duplicated). -/
theorem branch_classifier_partition (roll : R → String) (rows : List R) :
    ((split_by_branch roll rows).1.map Prod.fst).Nodup ∧
    (∀ c rs, (c, rs) ∈ (split_by_branch roll rows).1 →
      rs = rows.filter (fun r => branchCode (roll r) = some c)) ∧
    (split_by_branch roll rows).2 = rows.filter (fun r => branchCode (roll r) = none) ∧
    recsMS (split_by_branch roll rows).1 + ↑(split_by_branch roll rows).2 =
      (rows : Multiset R) := by
  have hnd : ((split_by_branch roll rows).1.map Prod.fst).Nodup := by
    apply split_foldl_nodup
    simp
  refine ⟨hnd, ?_, ?_, ?_⟩
  · intro c rs hm
    have h1 := split_foldl_findBucket roll rows c ([], [])
    have h2 := findBucket_eq_of_mem c rs (split_by_branch roll rows).1 hm hnd
    rw [← h2]
    unfold split_by_branch
    rw [h1]
    simp [findBucket]
  · have := split_foldl_unmatched roll rows ([], [])
    simpa [split_by_branch] using this
  · have := split_foldl_recs roll rows ([], [])
    simpa [split_by_branch, recsMS] using this

theorem insertDesc_perm (x : String × List R) (g : List (String × List R)) :
    (insertDesc x g).Perm (x :: g) := by
  induction g with
  | nil => simp [insertDesc]
  | cons y t ih =>
    by_cases h : y.2.length ≤ x.2.length
    · simp [insertDesc, h]
    · simp only [insertDesc, if_neg h]
      exact (ih.cons y).trans (List.Perm.swap x y t)

theorem sortDesc_perm (g : List (String × List R)) : (sortDesc g).Perm g := by
  induction g with
  | nil => simp [sortDesc]
  | cons x t ih => exact (insertDesc_perm x (sortDesc t)).trans (ih.cons x)

theorem totalOf_sortDesc (bd : List (String × List R)) :
    totalOf (sortDesc bd) = totalOf bd := by
  unfold totalOf
  exact List.Perm.sum_eq (List.Perm.map (fun p => p.2.length) (sortDesc_perm bd))

theorem uniformMerged_length (bd : List (String × List R)) :
    (uniformMerged bd).length = totalOf bd := by
  rw [uniformMerged, List.length_flatten, List.map_map, ← totalOf_sortDesc bd]
  rfl

theorem mem_insertDesc (x z : String × List R) (g : List (String × List R)) :
    z ∈ insertDesc x g ↔ z = x ∨ z ∈ g :=
  (insertDesc_perm x g).mem_iff.trans List.mem_cons

theorem pairwise_insertDesc (x : String × List R) (g : List (String × List R))
    (h : List.Pairwise (fun a b => b.2.length ≤ a.2.length) g) :
    List.Pairwise (fun a b => b.2.length ≤ a.2.length) (insertDesc x g) := by
  induction g with
  | nil => simp [insertDesc]
  | cons y t ih =>
    rcases List.pairwise_cons.mp h with ⟨hy, ht⟩
    by_cases hle : y.2.length ≤ x.2.length
    · simp only [insertDesc, if_pos hle]
      refine List.pairwise_cons.mpr ⟨?_, h⟩
      intro z hz
      rcases List.mem_cons.mp hz with rfl | hz
      · exact hle
      · exact le_trans (hy z hz) hle
    · simp only [insertDesc, if_neg hle]
      refine List.pairwise_cons.mpr ⟨?_, ih ht⟩
      intro z hz
      rcases (mem_insertDesc x z t).mp hz with rfl | hz
      · omega
      · exact hy z hz

theorem pairwise_sortDesc (g : List (String × List R)) :
    List.Pairwise (fun a b => b.2.length ≤ a.2.length) (sortDesc g) := by
  induction g with
  | nil => simp [sortDesc]
  | cons x t ih => exact pairwise_insertDesc x (sortDesc t) ih

theorem filter_insertDesc (k : ℕ) (x : String × List R) (g : List (String × List R)) :
    (insertDesc x g).filter (fun p => p.2.length = k) =
      if x.2.length = k then x :: g.filter (fun p => p.2.length = k)
      else g.filter (fun p => p.2.length = k) := by
  induction g with
  | nil => by_cases hx : x.2.length = k <;> simp [insertDesc, hx]
  | cons y t ih =>
    by_cases hle : y.2.length ≤ x.2.length
    · rw [show insertDesc x (y :: t) = x :: y :: t from by simp [insertDesc, hle]]
      by_cases hx : x.2.length = k <;> simp [List.filter_cons, hx]
    · rw [show insertDesc x (y :: t) = y :: insertDesc x t from by
        simp [insertDesc, hle]]
      rw [List.filter_cons, List.filter_cons, ih]
      by_cases hy : y.2.length = k
      · have hx : ¬ x.2.length = k := by omega
        simp [hy, hx]
      · by_cases hx : x.2.length = k <;> simp [hy, hx]

theorem filter_sortDesc (k : ℕ) (g : List (String × List R)) :
    (sortDesc g).filter (fun p => p.2.length = k) =
      g.filter (fun p => p.2.length = k) := by
  induction g with
  | nil => rfl
  | cons x t ih =>
    show (insertDesc x (sortDesc t)).filter _ = _
    rw [filter_insertDesc, ih, List.filter_cons]
    by_cases hx : x.2.length = k <;> simp [hx]

theorem sliceGroups_length (size : ℕ) :
    ∀ (n : ℕ) (l : List R) (r : ℕ), (sliceGroups size l r n).length = n := by
  intro n
  induction n with
  | zero => intro l r; rfl
  | succ n ih => intro l r; simp [sliceGroups, ih]

theorem sliceGroups_spec (size : ℕ) :
    ∀ (n : ℕ) (l : List R) (r : ℕ), l.length = size * n + r → r ≤ n →
      (sliceGroups size l r n).map List.length =
          List.replicate r (size + 1) ++ List.replicate (n - r) size ∧
        (sliceGroups size l r n).flatten = l := by
  intro n
  induction n with
  | zero =>
    intro l r hl hr
    have hr0 : r = 0 := Nat.le_zero.mp hr
    subst hr0
    have hl0 : l = [] := List.length_eq_zero.mp (by omega)
    subst hl0
    simp [sliceGroups]
  | succ n ih =>
    intro l r hl hr
    have hmul : size * (n + 1) = size * n + size := by ring
    rw [hmul] at hl
    cases r with
    | zero =>
      have hsz : size ≤ l.length := by omega
      have htake : (l.take size).length = size := by
        rw [List.length_take]
        omega
      have hdrop : (l.drop size).length = size * n + 0 := by
        rw [List.length_drop]
        omega
      obtain ⟨ihm, ihf⟩ := ih (l.drop size) 0 hdrop (Nat.zero_le n)
      constructor
      · simp only [sliceGroups, Nat.lt_irrefl, if_false, List.map_cons, htake,
          Nat.add_zero, ihm]
        simp [List.replicate_succ]
      · simp only [sliceGroups, Nat.lt_irrefl, if_false, List.flatten_cons,
          Nat.add_zero, ihf]
        exact List.take_append_drop size l
    | succ r' =>
      have hsz : size + 1 ≤ l.length := by omega
      have htake : (l.take (size + 1)).length = size + 1 := by
        rw [List.length_take]
        omega
      have hdrop : (l.drop (size + 1)).length = size * n + r' := by
        rw [List.length_drop]
        omega
      have hr' : r' ≤ n := by omega
      obtain ⟨ihm, ihf⟩ := ih (l.drop (size + 1)) r' hdrop hr'
      have hstep : sliceGroups size l (r' + 1) (n + 1) =
          l.take (size + 1) :: sliceGroups size (l.drop (size + 1)) r' n := by
        simp [sliceGroups]
      constructor
      · rw [hstep, List.map_cons, htake, ihm]
        simp [List.replicate_succ, Nat.succ_sub_succ]
      · rw [hstep, List.flatten_cons, ihf]
        exact List.take_append_drop (size + 1) l

theorem uniform_ok (bd : List (String × List R)) (n : ℕ) (h1 : bd ≠ []) (h2 : 1 ≤ n) :
    uniform_distribution bd n = .ok (uniformGroups bd n) := by
  rcases bd with _ | ⟨p, t⟩
  · exact absurd rfl h1
  · have hn : ¬ n = 0 := by omega
    simp [uniform_distribution, List.isEmpty, hn]

theorem uniformGroups_profile (bd : List (String × List R)) (n : ℕ) (h2 : 1 ≤ n) :
    (uniformGroups bd n).map List.length =
        List.replicate (totalOf bd % n) (totalOf bd / n + 1) ++
          List.replicate (n - totalOf bd % n) (totalOf bd / n) ∧
      (uniformGroups bd n).flatten = uniformMerged bd := by
  have h_eq : (uniformMerged bd).length = totalOf bd / n * n + totalOf bd % n := by
    rw [uniformMerged_length, Nat.mul_comm]
    exact (Nat.div_add_mod _ _).symm
  have h_le : totalOf bd % n ≤ n := le_of_lt (Nat.mod_lt _ (by omega))
  have := sliceGroups_spec (totalOf bd / n) n (uniformMerged bd) (totalOf bd % n) h_eq h_le
  simpa only [uniformGroups, uniformMerged_length] using this

/-- C2: Uniform Distributor group sizes.  For a non-empty bucket mapping with
total T and group count n at least 1, the call succeeds and, with
size = T / n and remainder = T % n, the first remainder groups have size + 1
records and the rest have size records; the sizes sum to T and any two group
sizes differ by at most one. -/
theorem uniform_group_sizes (bd : List (String × List R)) (n : ℕ)
    (h1 : bd ≠ []) (h2 : 1 ≤ n) :
    uniform_distribution bd n = .ok (uniformGroups bd n) ∧
    (uniformGroups bd n).map List.length =
      List.replicate (totalOf bd % n) (totalOf bd / n + 1) ++
        List.replicate (n - totalOf bd % n) (totalOf bd / n) ∧
    ((uniformGroups bd n).map List.length).sum = totalOf bd ∧
    (∀ a ∈ (uniformGroups bd n).map List.length,
      ∀ b ∈ (uniformGroups bd n).map List.length, a ≤ b + 1) := by
  obtain ⟨hmap, hflat⟩ := uniformGroups_profile bd n h2
  refine ⟨uniform_ok bd n h1 h2, hmap, ?_, ?_⟩
  · rw [← List.length_flatten, hflat, uniformMerged_length]
  · intro a ha b hb
    rw [hmap] at ha hb
    have hval : ∀ c ∈ List.replicate (totalOf bd % n) (totalOf bd / n + 1) ++
        List.replicate (n - totalOf bd % n) (totalOf bd / n),
        c = totalOf bd / n + 1 ∨ c = totalOf bd / n := by
      intro c hc
      rcases List.mem_append.mp hc with hc | hc
      · exact Or.inl (List.eq_of_mem_replicate hc)
      · exact Or.inr (List.eq_of_mem_replicate hc)
    rcases hval a ha with rfl | rfl <;> rcases hval b hb with h | h <;> omega

/-- C4: Uniform Distributor round trip.  For a non-empty bucket mapping and
group count n at least 1, the call succeeds with exactly n groups whose
in-order concatenation is exactly the merged sequence: buckets sorted by
descending size (a permutation of the mapping, sorted, with ties keeping the
original mapping order, expressed by equality of the equal-size fibers) and
concatenated. -/
theorem uniform_round_trip (bd : List (String × List R)) (n : ℕ)
    (h1 : bd ≠ []) (h2 : 1 ≤ n) :
    uniform_distribution bd n = .ok (uniformGroups bd n) ∧
    (uniformGroups bd n).length = n ∧
    (uniformGroups bd n).flatten = uniformMerged bd ∧
    (sortDesc bd).Perm bd ∧
    List.Pairwise (fun a b => b.2.length ≤ a.2.length) (sortDesc bd) ∧
    (∀ k, (sortDesc bd).filter (fun p => p.2.length = k) =
      bd.filter (fun p => p.2.length = k)) := by
  obtain ⟨hmap, hflat⟩ := uniformGroups_profile bd n h2
  exact ⟨uniform_ok bd n h1 h2, sliceGroups_length _ n _ _, hflat,
    sortDesc_perm bd, pairwise_sortDesc bd, fun k => filter_sortDesc k bd⟩

/-- C6 counterexample: the claim quantifies over every bucket mapping, but on
the empty mapping (total 0, so any group count exceeds the total) the code
raises a ValueError from concatenating zero frames instead of succeeding. -/
theorem uniform_more_groups_cex :
    totalOf (R := String) [] < 1 ∧
      uniform_distribution (R := String) [] 1 = .error .valueError :=
  ⟨Nat.one_pos, rfl⟩

/-- C6 amended: for every non-empty bucket mapping with total T and every
group count n greater than T, the Uniform Distributor succeeds, produces n
groups, and every group past the first T is empty. -/
theorem uniform_more_groups_than_records (bd : List (String × List R)) (n : ℕ)
    (h1 : bd ≠ []) (h2 : totalOf bd < n) :
    uniform_distribution bd n = .ok (uniformGroups bd n) ∧
    (uniformGroups bd n).length = n ∧
    ∀ g ∈ (uniformGroups bd n).drop (totalOf bd), g = [] := by
  have h2' : 1 ≤ n := by omega
  obtain ⟨hmap, _⟩ := uniformGroups_profile bd n h2'
  rw [Nat.mod_eq_of_lt h2, Nat.div_eq_of_lt h2] at hmap
  refine ⟨uniform_ok bd n h1 h2', sliceGroups_length _ n _ _, ?_⟩
  intro g hg
  have hlg : g.length ∈ ((uniformGroups bd n).map List.length).drop (totalOf bd) := by
    rw [← List.map_drop]
    exact List.mem_map_of_mem List.length hg
  rw [hmap, List.drop_left' (List.length_replicate _ _)] at hlg
  exact List.length_eq_zero.mp (List.eq_of_mem_replicate hlg)

theorem totalOf_cons (c : String) (rs : List R) (t : List (String × List R)) :
    totalOf ((c, rs) :: t) = rs.length + totalOf t := by
  simp [totalOf]

theorem recsMS_card (g : List (String × List R)) :
    Multiset.card (recsMS g) = totalOf g := by
  induction g with
  | nil => rfl
  | cons p t ih =>
    obtain ⟨c, rs⟩ := p
    rw [recsMS_cons, totalOf_cons]
    simp [ih]

theorem poolMeasure_cons (b : String) (q : List R) (rest : List (String × List R)) :
    poolMeasure ((b, q) :: rest) = q.length + poolMeasure rest + 1 := by
  simp [poolMeasure, totalOf_cons]
  omega

theorem fillPass_qnil (size : ℕ) (b : String) (rest : List (String × List R))
    (group : List R) :
    fillPass size ((b, []) :: rest) group = fillPass size rest group := rfl

theorem fillPass_break (size : ℕ) (b : String) (r : R) (q' : List R)
    (rest : List (String × List R)) (group : List R)
    (h : (group ++ [r]).length = size) :
    fillPass size ((b, r :: q') :: rest) group =
      ((if q'.isEmpty then rest else (b, q') :: rest), group ++ [r]) := by
  simp only [fillPass]
  rw [if_pos h]

theorem fillPass_go (size : ℕ) (b : String) (r : R) (q' : List R)
    (rest : List (String × List R)) (group : List R)
    (h : ¬ (group ++ [r]).length = size) :
    fillPass size ((b, r :: q') :: rest) group =
      ((if q'.isEmpty then (fillPass size rest (group ++ [r])).1
        else (b, q') :: (fillPass size rest (group ++ [r])).1),
        (fillPass size rest (group ++ [r])).2) := by
  simp only [fillPass]
  rw [if_neg h]

theorem fillPass_conserve (size : ℕ) :
    ∀ (pools : List (String × List R)) (group : List R),
      ((fillPass size pools group).2 : Multiset R) +
          recsMS (fillPass size pools group).1 = ↑group + recsMS pools := by
  intro pools
  induction pools with
  | nil => intro group; simp [fillPass, recsMS]
  | cons p rest ih =>
    intro group
    obtain ⟨b, q⟩ := p
    cases q with
    | nil =>
      rw [fillPass_qnil, ih, recsMS_cons]
      simp
    | cons r q' =>
      by_cases hlen : (group ++ [r]).length = size
      · rw [fillPass_break size b r q' rest group hlen]
        cases q' with
        | nil =>
          simp only [List.isEmpty_nil, if_true, recsMS_cons, coe_append, coe_cons,
            Multiset.coe_singleton]
          abel
        | cons c cs =>
          simp only [List.isEmpty_cons, Bool.false_eq_true, if_false, recsMS_cons,
            coe_append, coe_cons, Multiset.coe_singleton]
          abel
      · rw [fillPass_go size b r q' rest group hlen]
        cases q' with
        | nil =>
          simp only [List.isEmpty_nil, if_true]
          rw [ih (group ++ [r])]
          simp only [recsMS_cons, coe_append, coe_cons, Multiset.coe_singleton]
          abel
        | cons c cs =>
          simp only [List.isEmpty_cons, Bool.false_eq_true, if_false, recsMS_cons]
          rw [add_left_comm, ih (group ++ [r])]
          simp only [recsMS_cons, coe_append, coe_cons, Multiset.coe_singleton]
          abel

theorem fillPass_measure_le (size : ℕ) :
    ∀ (pools : List (String × List R)) (group : List R),
      poolMeasure (fillPass size pools group).1 ≤ poolMeasure pools := by
  intro pools
  induction pools with
  | nil => intro group; simp [fillPass]
  | cons p rest ih =>
    intro group
    obtain ⟨b, q⟩ := p
    cases q with
    | nil =>
      rw [fillPass_qnil]
      calc poolMeasure (fillPass size rest group).1 ≤ poolMeasure rest := ih group
        _ ≤ poolMeasure ((b, []) :: rest) := by rw [poolMeasure_cons]; omega
    | cons r q' =>
      by_cases hlen : (group ++ [r]).length = size
      · rw [fillPass_break size b r q' rest group hlen]
        cases q' with
        | nil =>
          simp [poolMeasure_cons] <;> omega
        | cons c cs =>
          simp [poolMeasure_cons] <;> omega
      · rw [fillPass_go size b r q' rest group hlen]
        have hrec := ih (group ++ [r])
        cases q' with
        | nil =>
          simp [poolMeasure_cons] <;> omega
        | cons c cs =>
          simp [poolMeasure_cons] <;> omega

theorem fillPass_measure_lt (size : ℕ) :
    ∀ (pools : List (String × List R)) (group : List R), pools ≠ [] →
      poolMeasure (fillPass size pools group).1 < poolMeasure pools := by
  intro pools
  cases pools with
  | nil => intro group h; exact absurd rfl h
  | cons p rest =>
    intro group _
    obtain ⟨b, q⟩ := p
    cases q with
    | nil =>
      rw [fillPass_qnil]
      calc poolMeasure (fillPass size rest group).1 ≤ poolMeasure rest :=
          fillPass_measure_le size rest group
        _ < poolMeasure ((b, []) :: rest) := by rw [poolMeasure_cons]; omega
    | cons r q' =>
      by_cases hlen : (group ++ [r]).length = size
      · rw [fillPass_break size b r q' rest group hlen]
        cases q' with
        | nil =>
          simp [poolMeasure_cons] <;> omega
        | cons c cs =>
          simp [poolMeasure_cons] <;> omega
      · rw [fillPass_go size b r q' rest group hlen]
        have hrec := fillPass_measure_le size rest (group ++ [r])
        cases q' with
        | nil =>
          simp [poolMeasure_cons] <;> omega
        | cons c cs =>
          simp [poolMeasure_cons] <;> omega

theorem fillPass_group_le (size : ℕ) :
    ∀ (pools : List (String × List R)) (group : List R), group.length < size →
      (fillPass size pools group).2.length ≤ size := by
  intro pools
  induction pools with
  | nil => intro group h; simp [fillPass]; omega
  | cons p rest ih =>
    intro group h
    obtain ⟨b, q⟩ := p
    cases q with
    | nil => rw [fillPass_qnil]; exact ih group h
    | cons r q' =>
      by_cases hlen : (group ++ [r]).length = size
      · rw [fillPass_break size b r q' rest group hlen]
        exact le_of_eq hlen
      · rw [fillPass_go size b r q' rest group hlen]
        have hlt : (group ++ [r]).length < size := by
          simp only [List.length_append, List.length_cons, List.length_nil] at hlen ⊢
          omega
        exact ih (group ++ [r]) hlt

theorem fillGroupF_conserve (size : ℕ) :
    ∀ (fuel : ℕ) (pools : List (String × List R)) (group : List R),
      ((fillGroupF size fuel pools group).2 : Multiset R) +
          recsMS (fillGroupF size fuel pools group).1 = ↑group + recsMS pools := by
  intro fuel
  induction fuel with
  | zero => intro pools group; rfl
  | succ fuel ih =>
    intro pools group
    by_cases hc : group.length < size ∧ pools.isEmpty = false
    · simp only [fillGroupF, if_pos hc]
      rw [ih]
      exact fillPass_conserve size pools group
    · simp only [fillGroupF, if_neg hc]

theorem fillGroupF_len (size : ℕ) :
    ∀ (fuel : ℕ) (pools : List (String × List R)) (group : List R),
      poolMeasure pools ≤ fuel → group.length ≤ size →
      (fillGroupF size fuel pools group).2.length =
        min size (group.length + totalOf pools) := by
  intro fuel
  induction fuel with
  | zero =>
    intro pools group hf hg
    have h0 : pools = [] := by
      cases pools with
      | nil => rfl
      | cons p t =>
        exfalso
        obtain ⟨b, q⟩ := p
        rw [poolMeasure_cons] at hf
        omega
    subst h0
    show group.length = min size (group.length + totalOf ([] : List (String × List R)))
    simp [totalOf]
    omega
  | succ fuel ih =>
    intro pools group hf hg
    by_cases hc : group.length < size ∧ pools.isEmpty = false
    · simp only [fillGroupF, if_pos hc]
      have hne : pools ≠ [] := by
        intro h
        rw [h] at hc
        simp at hc
      have hlt := fillPass_measure_lt size pools group hne
      have hgle := fillPass_group_le size pools group hc.1
      have hcard : (fillPass size pools group).2.length +
          totalOf (fillPass size pools group).1 = group.length + totalOf pools := by
        have hmc := congrArg Multiset.card (fillPass_conserve size pools group)
        simpa [recsMS_card] using hmc
      rw [ih _ _ (by omega) hgle]
      omega
    · simp only [fillGroupF, if_neg hc]
      by_cases hsz : group.length < size
      · have hpe : pools = [] := by
          cases pools with
          | nil => rfl
          | cons p t =>
            exfalso
            exact hc ⟨hsz, rfl⟩
        subst hpe
        show group.length = min size (group.length + totalOf ([] : List (String × List R)))
        simp [totalOf]
        omega
      · have hge : group.length = size := by omega
        show group.length = min size (group.length + totalOf pools)
        omega

theorem fillGroup_len (size : ℕ) (pools : List (String × List R)) :
    (fillGroup size pools).2.length = min size (totalOf pools) := by
  have := fillGroupF_len size (poolMeasure pools) pools [] le_rfl (Nat.zero_le _)
  simpa [fillGroup] using this

theorem fillGroup_conserve (size : ℕ) (pools : List (String × List R)) :
    ((fillGroup size pools).2 : Multiset R) + recsMS (fillGroup size pools).1 =
      recsMS pools := by
  have := fillGroupF_conserve size (poolMeasure pools) pools []
  simpa [fillGroup] using this

theorem fillGroups_spec (size : ℕ) :
    ∀ (n : ℕ) (pools : List (String × List R)), size * n ≤ totalOf pools →
      (fillGroups size n pools).2.map List.length = List.replicate n size ∧
      (fillGroups size n pools).2.length = n ∧
      totalOf (fillGroups size n pools).1 = totalOf pools - size * n ∧
      ((fillGroups size n pools).2.flatten : Multiset R) +
        recsMS (fillGroups size n pools).1 = recsMS pools := by
  intro n
  induction n with
  | zero =>
    intro pools h
    refine ⟨rfl, rfl, by simp [fillGroups], by simp [fillGroups, recsMS]⟩
  | succ n ih =>
    intro pools h
    have hmul : size * (n + 1) = size * n + size := by ring
    rw [hmul] at h
    have hg1 : (fillGroup size pools).2.length = size := by
      rw [fillGroup_len]
      omega
    have hc1 := fillGroup_conserve size pools
    have hcard1 : (fillGroup size pools).2.length +
        totalOf (fillGroup size pools).1 = totalOf pools := by
      have hmc := congrArg Multiset.card hc1
      simpa [recsMS_card] using hmc
    have hle : size * n ≤ totalOf (fillGroup size pools).1 := by omega
    obtain ⟨ihm, ihl, iht, ihc⟩ := ih (fillGroup size pools).1 hle
    have hstep : fillGroups size (n + 1) pools =
        ((fillGroups size n (fillGroup size pools).1).1,
          (fillGroup size pools).2 :: (fillGroups size n (fillGroup size pools).1).2) :=
      rfl
    refine ⟨?_, ?_, ?_, ?_⟩
    · rw [hstep]
      simp only [List.map_cons, hg1, ihm, List.replicate_succ]
    · rw [hstep]
      simp [ihl]
    · show totalOf (fillGroups size n (fillGroup size pools).1).1 =
        totalOf pools - size * (n + 1)
      rw [hmul]
      omega
    · rw [hstep]
      simp only [List.flatten_cons, coe_append]
      rw [add_assoc, ihc]
      exact hc1

theorem flatten_snd_length (g : List (String × List R)) :
    ((g.map Prod.snd).flatten).length = totalOf g := by
  rw [List.length_flatten, List.map_map]
  rfl

theorem modifyIdx_append_left (f : List R → List R) (pre post : List (List R)) :
    modifyIdx f pre.length (pre ++ post) = pre ++ modifyIdx f 0 post := by
  induction pre with
  | nil => simp
  | cons g t ih => simp [modifyIdx, ih]

theorem addLeftovers_zipApp (n : ℕ) :
    ∀ (l : List R) (pre post : List (List R)),
      (pre ++ post).length = n → pre.length + l.length ≤ n →
      addLeftovers n l pre.length (pre ++ post) = pre ++ zipApp post l := by
  intro l
  induction l with
  | nil => intro pre post h1 h2; simp [addLeftovers, zipApp]
  | cons x rest ih =>
    intro pre post h1 h2
    have hlt : pre.length < n := by
      simp only [List.length_cons] at h2
      omega
    have hmod : pre.length % n = pre.length := Nat.mod_eq_of_lt hlt
    cases post with
    | nil =>
      exfalso
      simp at h1
      omega
    | cons g gs =>
      simp only [addLeftovers, hmod, modifyIdx_append_left]
      have hm0 : modifyIdx (fun t => t ++ [x]) 0 (g :: gs) = (g ++ [x]) :: gs := rfl
      rw [hm0]
      have hsplit : pre ++ (g ++ [x]) :: gs = (pre ++ [g ++ [x]]) ++ gs := by simp
      have hpl : pre.length + 1 = (pre ++ [g ++ [x]]).length := by simp
      rw [hsplit, hpl]
      rw [ih (pre ++ [g ++ [x]]) gs (by simp at h1 ⊢; omega)
        (by simp at h2 ⊢; omega)]
      simp [zipApp]

theorem zipApp_lengths (k : ℕ) :
    ∀ (l : List R) (gs : List (List R)), l.length ≤ gs.length →
      gs.map List.length = List.replicate gs.length k →
      (zipApp gs l).map List.length =
        List.replicate l.length (k + 1) ++
          List.replicate (gs.length - l.length) k := by
  intro l
  induction l with
  | nil => intro gs h1 h2; simpa [zipApp] using h2
  | cons x rest ih =>
    intro gs h1 h2
    cases gs with
    | nil => simp at h1
    | cons g gs' =>
      simp only [List.length_cons, List.replicate_succ, List.map_cons,
        List.cons.injEq] at h2
      obtain ⟨hg, hgs⟩ := h2
      simp only [List.length_cons] at h1
      have := ih gs' (by omega) hgs
      simp only [zipApp, List.map_cons, List.length_append, List.length_cons,
        List.length_nil, hg, this, List.length_replicate]
      simp [List.replicate_succ, Nat.succ_sub_succ]

theorem zipApp_flatten :
    ∀ (l : List R) (gs : List (List R)), l.length ≤ gs.length →
      ((zipApp gs l).flatten : Multiset R) = ↑gs.flatten + ↑l := by
  intro l
  induction l with
  | nil => intro gs h; simp [zipApp]
  | cons x rest ih =>
    intro gs h
    cases gs with
    | nil => simp at h
    | cons g gs' =>
      simp only [List.length_cons] at h
      simp only [zipApp, List.flatten_cons, coe_append, coe_cons,
        Multiset.coe_singleton, Multiset.coe_nil, ih gs' (by omega)]
      abel

theorem mixedGroups_spec (bd : List (String × List R)) (n : ℕ) (h : 1 ≤ n) :
    (mixedGroups bd n).map List.length =
        List.replicate (totalOf bd % n) (totalOf bd / n + 1) ++
          List.replicate (n - totalOf bd % n) (totalOf bd / n) ∧
      ((mixedGroups bd n).flatten : Multiset R) = recsMS bd := by
  have hdm := Nat.div_add_mod (totalOf bd) n
  have hcm : n * (totalOf bd / n) = totalOf bd / n * n := Nat.mul_comm _ _
  have hsn : totalOf bd / n * n ≤ totalOf bd := by omega
  obtain ⟨hmap, hlen, htot, hcons⟩ := fillGroups_spec (totalOf bd / n) n bd hsn
  have hlnum : (((fillGroups (totalOf bd / n) n bd).1.map Prod.snd).flatten).length =
      totalOf bd % n := by
    rw [flatten_snd_length, htot]
    omega
  have hmodlt : totalOf bd % n < n := Nat.mod_lt _ (by omega)
  have hz := addLeftovers_zipApp n
    (((fillGroups (totalOf bd / n) n bd).1.map Prod.snd).flatten) []
    (fillGroups (totalOf bd / n) n bd).2 (by simpa using hlen)
    (by simp [hlnum]; omega)
  have hmg : mixedGroups bd n =
      zipApp (fillGroups (totalOf bd / n) n bd).2
        (((fillGroups (totalOf bd / n) n bd).1.map Prod.snd).flatten) := by
    unfold mixedGroups
    simpa using hz
  constructor
  · rw [hmg, zipApp_lengths (totalOf bd / n) _ _ (by rw [hlnum, hlen]; omega)
      (by rw [hlen]; exact hmap), hlnum, hlen]
  · rw [hmg, zipApp_flatten _ _ (by rw [hlnum, hlen]; omega)]
    have hleft : (((fillGroups (totalOf bd / n) n bd).1.map Prod.snd).flatten :
        Multiset R) = recsMS (fillGroups (totalOf bd / n) n bd).1 := rfl
    rw [hleft, hcons]

/-- C3: Mixed Distributor preservation.  For every bucket mapping and every
group count at least 1, the call succeeds and the concatenation of the
produced groups is a permutation of all bucket records (every record of
every bucket is assigned to exactly one group, none dropped or duplicated),
so the group sizes sum to the total number of classified records. -/
theorem mixed_preservation (bd : List (String × List R)) (k : ℤ) (h : 1 ≤ k) :
    mixed_distribution bd k = .ok (mixedGroups bd k.toNat) ∧
    (mixedGroups bd k.toNat).flatten.Perm ((bd.map Prod.snd).flatten) ∧
    ((mixedGroups bd k.toNat).map List.length).sum = totalOf bd := by
  have hk0 : ¬ k = 0 := by omega
  have hkneg : ¬ k < 0 := by omega
  have h1 : 1 ≤ k.toNat := by omega
  obtain ⟨hmap, hflat⟩ := mixedGroups_spec bd k.toNat h1
  have hperm : (mixedGroups bd k.toNat).flatten.Perm ((bd.map Prod.snd).flatten) :=
    Multiset.coe_eq_coe.mp hflat
  refine ⟨by simp [mixed_distribution, hk0, hkneg], hperm, ?_⟩
  rw [← List.length_flatten, hperm.length_eq, flatten_snd_length]

/-- C3 witness at a concrete instance. -/
theorem mixed_preservation_witness :
    mixed_distribution [("CS", ["a", "b", "c"]), ("EC", ["d"])] 2 =
      .ok (mixedGroups [("CS", ["a", "b", "c"]), ("EC", ["d"])] 2) ∧
    ((mixedGroups [("CS", ["a", "b", "c"]), ("EC", ["d"])] 2).map List.length).sum =
      totalOf [("CS", ["a", "b", "c"]), ("EC", ["d"])] := by
  obtain ⟨h1, _, h3⟩ :=
    mixed_preservation [("CS", ["a", "b", "c"]), ("EC", ["d"])] 2 (by decide)
  exact ⟨h1, h3⟩

/-- C10: Mixed Distributor size profile.  For every bucket mapping with
total T and every group count at least 1, with size = T / n and
remainder = T % n: the fill phase brings every one of the n groups to
exactly size records, exactly remainder records remain in the queues as
leftovers, and after the round-robin (starting at group 0) the first
remainder groups have size + 1 records and the rest size records — the same
profile as the Uniform Distributor. -/
theorem mixed_size_profile (bd : List (String × List R)) (k : ℤ) (h : 1 ≤ k) :
    mixed_distribution bd k = .ok (mixedGroups bd k.toNat) ∧
    (fillGroups (totalOf bd / k.toNat) k.toNat bd).2.map List.length =
      List.replicate k.toNat (totalOf bd / k.toNat) ∧
    (((fillGroups (totalOf bd / k.toNat) k.toNat bd).1.map Prod.snd).flatten).length =
      totalOf bd % k.toNat ∧
    (mixedGroups bd k.toNat).map List.length =
      List.replicate (totalOf bd % k.toNat) (totalOf bd / k.toNat + 1) ++
        List.replicate (k.toNat - totalOf bd % k.toNat) (totalOf bd / k.toNat) := by
  have hk0 : ¬ k = 0 := by omega
  have hkneg : ¬ k < 0 := by omega
  have h1 : 1 ≤ k.toNat := by omega
  have hdm := Nat.div_add_mod (totalOf bd) k.toNat
  have hcm : k.toNat * (totalOf bd / k.toNat) = totalOf bd / k.toNat * k.toNat :=
    Nat.mul_comm _ _
  have hsn : totalOf bd / k.toNat * k.toNat ≤ totalOf bd := by omega
  obtain ⟨hmap, hlen, htot, _⟩ := fillGroups_spec (totalOf bd / k.toNat) k.toNat bd hsn
  obtain ⟨hprof, _⟩ := mixedGroups_spec bd k.toNat h1
  refine ⟨by simp [mixed_distribution, hk0, hkneg], hmap, ?_, hprof⟩
  rw [flatten_snd_length, htot]
  omega

/-- C10 witness at a concrete instance. -/
theorem mixed_size_profile_witness :
    (mixedGroups [("CS", ["a", "b", "c"]), ("EC", ["d"])] 3).map List.length =
      List.replicate 1 2 ++ List.replicate 2 1 := by
  have h := (mixed_size_profile [("CS", ["a", "b", "c"]), ("EC", ["d"])] 3
    (by decide)).2.2.2
  simpa using h

/-- C2 witness at a concrete instance. -/
theorem uniform_group_sizes_witness :
    uniform_distribution [("CS", ["a", "b"]), ("EC", ["c"])] 2 =
      .ok (uniformGroups [("CS", ["a", "b"]), ("EC", ["c"])] 2) ∧
    ((uniformGroups [("CS", ["a", "b"]), ("EC", ["c"])] 2).map List.length).sum =
      totalOf [("CS", ["a", "b"]), ("EC", ["c"])] := by
  obtain ⟨h1, _, h3, _⟩ := uniform_group_sizes [("CS", ["a", "b"]), ("EC", ["c"])] 2
    (by decide) (by decide)
  exact ⟨h1, h3⟩

/-- C4 witness at a concrete instance. -/
theorem uniform_round_trip_witness :
    (uniformGroups [("CS", ["a"]), ("EC", ["b", "c"])] 2).flatten =
      uniformMerged [("CS", ["a"]), ("EC", ["b", "c"])] :=
  (uniform_round_trip [("CS", ["a"]), ("EC", ["b", "c"])] 2 (by decide)
    (by decide)).2.2.1

/-- C6 witness at a concrete instance. -/
theorem uniform_more_groups_witness :
    uniform_distribution [("CS", ["a"])] 3 = .ok (uniformGroups [("CS", ["a"])] 3) ∧
    (uniformGroups [("CS", ["a"])] 3).length = 3 := by
  obtain ⟨h1, h2, _⟩ := uniform_more_groups_than_records [("CS", ["a"])] 3
    (by decide) (by decide)
  exact ⟨h1, h2⟩

/-- C5 (code-bug evidence): the Mixed Distributor performs no validation of
the group count.  With group count 0 it actually divides by zero (an
uncaught ZeroDivisionError, not a validation error); with group count -1 it
either silently succeeds (empty bucket mapping: no groups are written and
the function returns its success message) or dies on an out-of-range list
index once a leftover record is appended. -/
theorem mixed_invalid_group_count_behavior :
    mixed_distribution ([] : List (String × List String)) (-1) = .ok [] ∧
    mixed_distribution ([] : List (String × List String)) 0 =
      .error .zeroDivisionError ∧
    mixed_distribution [("CS", ["a"])] 0 = .error .zeroDivisionError ∧
    mixed_distribution [("CS", ["a"])] (-1) = .error .indexError :=
  ⟨rfl, rfl, rfl, rfl⟩

/-- The ten-record worked-example input of the spec: six CS rolls and four
EC rolls, records modelled by their roll strings. -/
def exampleRolls : List String :=
  ["2023CS01", "2023CS02", "2023CS03", "2023CS04", "2023CS05", "2023CS06",
    "2023EC01", "2023EC02", "2023EC03", "2023EC04"]

/-- C9: the worked example.  The classifier buckets the ten records into
CS (6) and EC (4) with no unmatched rows; with 3 groups the uniform
distributor slices the CS-then-EC concatenation into sizes 4, 3, 3 exactly
as the spec lists; the mixed distributor (target size 3, remainder 1)
alternates CS and EC within each group while both queues last and appends
the single leftover record EC04 to the first group. -/
theorem worked_example :
    (split_by_branch id exampleRolls).1 =
      [("CS", ["2023CS01", "2023CS02", "2023CS03", "2023CS04", "2023CS05",
        "2023CS06"]),
        ("EC", ["2023EC01", "2023EC02", "2023EC03", "2023EC04"])] ∧
    (split_by_branch id exampleRolls).2 = [] ∧
    uniform_distribution (split_by_branch id exampleRolls).1 3 =
      .ok [["2023CS01", "2023CS02", "2023CS03", "2023CS04"],
        ["2023CS05", "2023CS06", "2023EC01"],
        ["2023EC02", "2023EC03", "2023EC04"]] ∧
    totalOf (split_by_branch id exampleRolls).1 / 3 = 3 ∧
    totalOf (split_by_branch id exampleRolls).1 % 3 = 1 ∧
    mixed_distribution (split_by_branch id exampleRolls).1 3 =
      .ok [["2023CS01", "2023EC01", "2023CS02", "2023EC04"],
        ["2023CS03", "2023EC02", "2023CS04"],
        ["2023CS05", "2023EC03", "2023CS06"]] := by
  refine ⟨rfl, rfl, rfl, rfl, rfl, rfl⟩

/-- Embeds the summary regex of generate_summary (fully anchored by dollar,
unlike the classifier pattern): the identifier must be exactly 4 ASCII
digits, 2 ASCII letters, 2 ASCII digits — or exactly 2 ASCII letters — and
the captured letters are upper-cased; anything else yields no code. -/
def summaryCode (s : String) : Option String :=
  match s.toList with
  | [d1, d2, d3, d4, a1, a2, e1, e2] =>
    if d1.isDigit && d2.isDigit && d3.isDigit && d4.isDigit
        && a1.isAlpha && a2.isAlpha && e1.isDigit && e2.isDigit
    then some (String.mk [a1.toUpper, a2.toUpper])
    else none
  | [a1, a2] =>
    if a1.isAlpha && a2.isAlpha then some (String.mk [a1.toUpper, a2.toUpper])
    else none
  | _ => none

/-- Increment the count stored for a code, appending a fresh entry on first
sight (the occurrence counting behind value_counts; the claims do not
depend on the ordering value_counts reports). -/
def bump (c : String) : List (String × ℕ) → List (String × ℕ)
  | [] => [(c, 1)]
  | (b, k) :: t => if b = c then (b, k + 1) :: t else (b, k) :: bump c t

/-- Occurrence counts per code of a list of codes. -/
def tally : List String → List (String × ℕ)
  | [] => []
  | c :: rest => bump c (tally rest)

/-- The per-branch counts of one group file's row in read_stats: extract a
code from each roll with the summary pattern, dropping the rolls that match
neither alternative, and count occurrences. -/
def fileBranchTally (roll : R → String) (file : List R) : List (String × ℕ) :=
  tally ((file.map roll).filterMap summaryCode)

/-- The Total cell of a group file's row in read_stats: the raw row count of
the file, counting also rolls that match neither pattern. -/
def fileTotal (file : List R) : ℕ :=
  file.length

/-- All branch codes observed across a list of group files, in scan order,
duplicates included. -/
def observedCodes (roll : R → String) (files : List (List R)) : List String :=
  (files.map (fun f => (f.map roll).filterMap summaryCode)).flatten

/-- Column list of one read_stats table: Group, then every branch code
observed in some file sorted alphabetically, then Total; with no files the
empty frame keeps just Group and Total. -/
def statsColumns (roll : R → String) (files : List (List R)) : List String :=
  if files.isEmpty then ["Group", "Total"]
  else "Group" ::
    (List.insertionSort (fun a b => a ≤ b) (observedCodes roll files).dedup ++
      ["Total"])

/-- Embeds the column alignment of generate_summary: the combined summary
table takes the uniform table's columns whenever the uniform table has any
row, else the mixed table's, else the bare pair; the mixed table is then
reindexed to exactly these columns with zero fill. -/
def summaryColumns (roll : R → String) (ufiles mfiles : List (List R)) :
    List String :=
  if ufiles.isEmpty then
    (if mfiles.isEmpty then ["Group", "Total"] else statsColumns roll mfiles)
  else statsColumns roll ufiles

theorem bump_sum (c : String) (t : List (String × ℕ)) :
    ((bump c t).map Prod.snd).sum = (t.map Prod.snd).sum + 1 := by
  induction t with
  | nil => rfl
  | cons p t ih =>
    obtain ⟨b, k⟩ := p
    by_cases hb : b = c <;> simp [bump, hb, ih] <;> omega

theorem tally_sum (l : List String) : ((tally l).map Prod.snd).sum = l.length := by
  induction l with
  | nil => rfl
  | cons c rest ih => simp [tally, bump_sum, ih]

theorem filterMap_all_length (roll : R → String) :
    ∀ file : List R, (∀ r ∈ file, (summaryCode (roll r)).isSome) →
      ((file.map roll).filterMap summaryCode).length = file.length := by
  intro file
  induction file with
  | nil => intro _; rfl
  | cons r rest ih =>
    intro h
    have hr := h r (List.mem_cons_self r rest)
    rcases ho : summaryCode (roll r) with _ | c
    · rw [ho] at hr
      simp at hr
    · simp only [List.map_cons, List.filterMap_cons, ho, List.length_cons]
      rw [ih (fun x hx => h x (List.mem_cons_of_mem r hx))]

/-- C7 counterexample: a record whose roll matches the classifier pattern
but not the anchored summary pattern (one trailing digit too many) is
counted by the row's Total but by no branch column, so the row's branch
counts sum to 0 while Total is 1. -/
theorem summary_row_consistency_cex :
    branchCode "2023CS013" = some "CS" ∧
    ¬ ((fileBranchTally id ["2023CS013"]).map Prod.snd).sum =
        fileTotal (["2023CS013"] : List String) := by
  refine ⟨by decide, by decide⟩

/-- C7 amended: in any group file in which every record's identifier matches
one of the two summary pattern alternatives, the per-branch counts of that
file's row sum exactly to the row's Total; in general they sum to the number
of matching records only. -/
theorem summary_row_consistency (roll : R → String) (file : List R)
    (h : ∀ r ∈ file, (summaryCode (roll r)).isSome) :
    ((fileBranchTally roll file).map Prod.snd).sum = fileTotal file := by
  unfold fileBranchTally fileTotal
  rw [tally_sum]
  exact filterMap_all_length roll file h

/-- C7 witness at a concrete instance. -/
theorem summary_row_consistency_witness :
    ((fileBranchTally id ["2023CS01", "AB"]).map Prod.snd).sum =
      fileTotal (["2023CS01", "AB"] : List String) :=
  summary_row_consistency id ["2023CS01", "AB"] (by decide)

/-- C8 counterexample: with a uniform file set observing only CS and a mixed
file set observing only EC, the combined table's columns are taken from the
uniform table alone and the mixed-only branch code EC gets no column. -/
theorem summary_columns_cex :
    "EC" ∈ observedCodes id [["2023EC01"]] ∧
    "EC" ∉ summaryColumns id [["2023CS01"]] [["2023EC01"]] := by
  refine ⟨by decide, by decide⟩

/-- C8 amended: when there is at least one uniform group file, the combined
summary table's columns are Group, the branch codes observed in the uniform
files sorted alphabetically, and Total; a code is a column exactly when it
is Group, Total, or observed in the uniform files, so the mixed table is
reindexed to the uniform columns and a branch code observed only in the
mixed files is dropped rather than given a zero-filled column. -/
theorem summary_columns_from_uniform (roll : R → String)
    (ufiles mfiles : List (List R)) (hu : ufiles ≠ []) :
    summaryColumns roll ufiles mfiles =
      "Group" ::
        (List.insertionSort (fun a b => a ≤ b) (observedCodes roll ufiles).dedup ++
          ["Total"]) ∧
    List.Sorted (fun a b : String => a ≤ b)
      (List.insertionSort (fun a b => a ≤ b) (observedCodes roll ufiles).dedup) ∧
    (∀ c, c ∈ summaryColumns roll ufiles mfiles ↔
      (c = "Group" ∨ c = "Total" ∨ c ∈ observedCodes roll ufiles)) := by
  have hne : ufiles.isEmpty = false := by
    cases ufiles with
    | nil => exact absurd rfl hu
    | cons f fs => rfl
  have hcols : summaryColumns roll ufiles mfiles =
      "Group" ::
        (List.insertionSort (fun a b => a ≤ b) (observedCodes roll ufiles).dedup ++
          ["Total"]) := by
    simp [summaryColumns, statsColumns, hne]
  refine ⟨hcols, List.sorted_insertionSort _ _, ?_⟩
  intro c
  rw [hcols]
  simp only [List.mem_cons, List.mem_append, List.mem_singleton,
    (List.perm_insertionSort (fun a b : String => a ≤ b)
      (observedCodes roll ufiles).dedup).mem_iff, List.mem_dedup]
  tauto

/-- C8 witness at a concrete instance. -/
theorem summary_columns_witness :
    "CS" ∈ summaryColumns id [["2023CS01"]] [] :=
  ((summary_columns_from_uniform id [["2023CS01"]] [] (by decide)).2.2 "CS").mpr
    (Or.inr (Or.inr (by decide)))

end StudentGroups
